import Mathlib

/-
Verification of the guldkorn fork-discovery tool (src/main.go).

The development shallowly embeds the data model and the pure logic of the
program: the per-branch divergence classification inside `compare`, the base
branch selection inside `compare`, the rate-limit retry loop
(`waitForRateLimitReset` and the retry pattern common to all API call sites),
the paginated listing loops (`getForks`, `getBranches`, `getCommits`), the
breadth-first fork-graph crawl (`getAllForks`), and the manual queue
(`repoQueue`).  External effects (network, logging, sleeping) are modelled by
explicit inputs: an API operation becomes a stream of outcomes indexed by the
invocation number, the fork graph becomes a finite association list, wall
clock time becomes an explicit integer threaded through the retry loop, and
the unbounded Go loops become fuel-indexed recursions where the fuel models
nontermination (`none` = the loop is still running).
-/

namespace Guldkorn

/-- A repository reference, mirroring `repoElem` in main.go: owner name and
repository name.  Used as the key of the `done` set and the queue elements. -/
structure repoElem where
  ownerName : String
  repoName : String
deriving DecidableEq

/-- The fields of `github.Repository` that main.go reads: `Owner.GetLogin()`,
`GetName()`, `GetDefaultBranch()` and `GetForksCount()`.  `GetFullName()` is
`owner/name` per the GitHub API contract and is modelled as a derived field
below. -/
structure Repo where
  ownerLogin : String
  name : String
  defaultBranch : String
  forksCount : Nat
deriving DecidableEq

/-- `GetFullName()` of a repository: `owner/name`. -/
def Repo.fullName (r : Repo) : String := r.ownerLogin ++ "/" ++ r.name

/-- The `repoElem` built from a repository in `getAllForks`:
`{ownerName: fork.Owner.GetLogin(), repoName: fork.GetName()}`. -/
def Repo.ref (r : Repo) : repoElem := ⟨r.ownerLogin, r.name⟩

/-- The field of `github.Branch` that main.go reads: `GetName()`. -/
structure Branch where
  name : String
deriving DecidableEq

/-- The authorship data of one commit in a comparison:
`forkCommit.Author.GetLogin()`.  A nil `Author` yields the empty string in
Go (`GetLogin` on nil returns ""), so an anonymous commit is modelled by an
empty `authorLogin`. -/
structure CommitAuthorship where
  authorLogin : String
deriving DecidableEq

/-- The fields of the `CompareCommits` response that `compare` reads:
`GetStatus()`, `GetAheadBy()`, `GetBehindBy()` and `Commits`.  `aheadBy` and
`behindBy` are commit counts, hence naturals. -/
structure CompareResult where
  status : String
  aheadBy : Nat
  behindBy : Nat
  commits : List CommitAuthorship
deriving DecidableEq

/-- The four outcomes of the classification switch in `compare`
(main.go lines 249-273): the `forkOwnerMadeCommit` case printed to standard
output, the `anonymousCommit` case and the default case printed to the debug
stream, and the not-ahead else branch. -/
inductive Classification where
  | interesting
  | anonymousDivergence
  | unattributedDivergence
  | notAhead
deriving DecidableEq

/-- The `forkOwnerMadeCommit` flag of `compare` (main.go lines 220-225): set
iff some commit in the comparison has `Author.GetLogin() == forkOwnerName`. -/
def forkOwnerMadeCommit (forkOwnerName : String) (comp : CompareResult) : Bool :=
  comp.commits.any (fun forkCommit => forkCommit.authorLogin == forkOwnerName)

/-- The `anonymousCommit` flag of `compare` (main.go lines 221-231): set iff
some commit in the comparison has `len(Author.GetLogin()) == 0`. -/
def anonymousCommit (comp : CompareResult) : Bool :=
  comp.commits.any (fun forkCommit => forkCommit.authorLogin.length == 0)

/-- The classification switch of `compare` (main.go lines 249-273): the
not-ahead guard `comp.GetAheadBy() > 0` first, then the switch with cases
`forkOwnerMadeCommit`, `anonymousCommit`, default, in source order. -/
def classify (forkOwnerName : String) (comp : CompareResult) : Classification :=
  if 0 < comp.aheadBy then
    if forkOwnerMadeCommit forkOwnerName comp then Classification.interesting
    else if anonymousCommit comp then Classification.anonymousDivergence
    else Classification.unattributedDivergence
  else Classification.notAhead

/-- The base branch selection of `compare` (main.go lines 201-206): the fork
branch name itself when the upstream branch set contains it, the upstream
default branch otherwise. -/
def compareRepoBranchName (repoBranches : List Branch) (defaultBranch forkBranchName : String) :
    String :=
  let repoBranchNames := repoBranches.map Branch.name
  if forkBranchName ∈ repoBranchNames then forkBranchName else defaultBranch

/-- A string has length zero iff it is the empty string. -/
theorem string_length_eq_zero_iff (s : String) : s.length = 0 ↔ s = "" := by
  cases s with
  | mk d =>
    constructor
    · intro h
      have hd : d = [] := by
        have : d.length = 0 := h
        exact List.length_eq_zero.mp this
      subst hd
      rfl
    · intro h
      rw [h]
      rfl

/-- The owner-made-commit flag holds iff some commit author login equals the
fork owner login. -/
theorem forkOwnerMadeCommit_iff (forkOwnerName : String) (comp : CompareResult) :
    forkOwnerMadeCommit forkOwnerName comp = true ↔
      ∃ c ∈ comp.commits, c.authorLogin = forkOwnerName := by
  simp [forkOwnerMadeCommit, List.any_eq_true]

/-- The anonymous-commit flag holds iff some commit author login is empty. -/
theorem anonymousCommit_iff (comp : CompareResult) :
    anonymousCommit comp = true ↔ ∃ c ∈ comp.commits, c.authorLogin = "" := by
  simp only [anonymousCommit, List.any_eq_true, beq_iff_eq]
  constructor
  · rintro ⟨c, hc, h⟩
    exact ⟨c, hc, (string_length_eq_zero_iff c.authorLogin).mp h⟩
  · rintro ⟨c, hc, h⟩
    exact ⟨c, hc, (string_length_eq_zero_iff c.authorLogin).mpr h⟩

/-- C1: for every fork branch with a CompareResult, classification is decided
in priority order with first match winning: `aheadBy = 0` yields not-ahead
regardless of authorship; otherwise a commit authored by the fork owner yields
interesting (even when an anonymous commit is also present); otherwise an
anonymous commit yields anonymous-divergence; otherwise
unattributed-divergence. -/
theorem classification_priority (forkOwnerName : String) (comp : CompareResult) :
    (comp.aheadBy = 0 → classify forkOwnerName comp = Classification.notAhead) ∧
    (comp.aheadBy ≠ 0 → (∃ c ∈ comp.commits, c.authorLogin = forkOwnerName) →
      classify forkOwnerName comp = Classification.interesting) ∧
    (comp.aheadBy ≠ 0 → (∀ c ∈ comp.commits, c.authorLogin ≠ forkOwnerName) →
      (∃ c ∈ comp.commits, c.authorLogin = "") →
      classify forkOwnerName comp = Classification.anonymousDivergence) ∧
    (comp.aheadBy ≠ 0 → (∀ c ∈ comp.commits, c.authorLogin ≠ forkOwnerName) →
      (∀ c ∈ comp.commits, c.authorLogin ≠ "") →
      classify forkOwnerName comp = Classification.unattributedDivergence) := by
  refine ⟨?_, ?_, ?_, ?_⟩
  · intro h
    simp [classify, h]
  · intro h hex
    have hpos : 0 < comp.aheadBy := Nat.pos_of_ne_zero h
    have hf : forkOwnerMadeCommit forkOwnerName comp = true :=
      (forkOwnerMadeCommit_iff forkOwnerName comp).mpr hex
    simp [classify, hpos, hf]
  · intro h hall hex
    have hpos : 0 < comp.aheadBy := Nat.pos_of_ne_zero h
    have hf : forkOwnerMadeCommit forkOwnerName comp = false := by
      rw [Bool.eq_false_iff]
      intro hc
      obtain ⟨c, hc1, hc2⟩ := (forkOwnerMadeCommit_iff forkOwnerName comp).mp hc
      exact hall c hc1 hc2
    have ha : anonymousCommit comp = true := (anonymousCommit_iff comp).mpr hex
    simp [classify, hpos, hf, ha]
  · intro h hall hnone
    have hpos : 0 < comp.aheadBy := Nat.pos_of_ne_zero h
    have hf : forkOwnerMadeCommit forkOwnerName comp = false := by
      rw [Bool.eq_false_iff]
      intro hc
      obtain ⟨c, hc1, hc2⟩ := (forkOwnerMadeCommit_iff forkOwnerName comp).mp hc
      exact hall c hc1 hc2
    have ha : anonymousCommit comp = false := by
      rw [Bool.eq_false_iff]
      intro hc
      obtain ⟨c, hc1, hc2⟩ := (anonymousCommit_iff comp).mp hc
      exact hnone c hc1 hc2
    simp [classify, hpos, hf, ha]

/-- A concrete comparison three ahead with one commit by the fork owner and
one anonymous commit. -/
def compOwnerAndAnon : CompareResult :=
  ⟨"diverged", 3, 1, [⟨"alice"⟩, ⟨""⟩]⟩

/-- Witness for C1: a comparison three ahead with one commit by the fork owner
and one anonymous commit is classified interesting. -/
theorem classification_priority_witness :
    classify "alice" compOwnerAndAnon = Classification.interesting :=
  (classification_priority "alice" compOwnerAndAnon).2.1
    (by decide) ⟨⟨"alice"⟩, by decide, rfl⟩

/-- C2: the base branch used for a fork branch is the same-named upstream
branch when one exists in the upstream branch set, and the upstream default
branch otherwise. -/
theorem base_branch_selection (repoBranches : List Branch)
    (defaultBranch forkBranchName : String) :
    (forkBranchName ∈ repoBranches.map Branch.name →
      compareRepoBranchName repoBranches defaultBranch forkBranchName = forkBranchName) ∧
    (forkBranchName ∉ repoBranches.map Branch.name →
      compareRepoBranchName repoBranches defaultBranch forkBranchName = defaultBranch) := by
  constructor
  · intro h
    simp [compareRepoBranchName, h]
  · intro h
    simp [compareRepoBranchName, h]

/-- Witness for C2: with upstream branches master and dev, fork branch dev is
compared against upstream dev, and fork branch feature-1 against the default
branch master. -/
theorem base_branch_selection_witness :
    compareRepoBranchName [⟨"master"⟩, ⟨"dev"⟩] "master" "dev" = "dev" ∧
    compareRepoBranchName [⟨"master"⟩, ⟨"dev"⟩] "master" "feature-1" = "master" :=
  ⟨(base_branch_selection [⟨"master"⟩, ⟨"dev"⟩] "master" "dev").1 (by decide),
   (base_branch_selection [⟨"master"⟩, ⟨"dev"⟩] "master" "feature-1").2 (by decide)⟩

/-- C10: when the fork owner login is the empty string, an ahead branch whose
comparison has commits that are all anonymous is classified interesting, not
anonymous-divergence, because the empty author login compares equal to the
empty owner login. -/
theorem empty_owner_anonymous_interesting (comp : CompareResult)
    (h1 : 0 < comp.aheadBy) (h2 : comp.commits ≠ [])
    (h3 : ∀ c ∈ comp.commits, c.authorLogin = "") :
    classify "" comp = Classification.interesting := by
  obtain ⟨c, hc⟩ := List.exists_mem_of_ne_nil comp.commits h2
  have hf : forkOwnerMadeCommit "" comp = true :=
    (forkOwnerMadeCommit_iff "" comp).mpr ⟨c, hc, h3 c hc⟩
  simp [classify, h1, hf]

/-- A concrete comparison one ahead with a single anonymous commit. -/
def compOnlyAnon : CompareResult := ⟨"ahead", 1, 0, [⟨""⟩]⟩

/-- Witness for C10: a branch one ahead with a single anonymous commit, under
an empty fork owner login, is classified interesting. -/
theorem empty_owner_anonymous_interesting_witness :
    classify "" compOnlyAnon = Classification.interesting :=
  empty_owner_anonymous_interesting compOnlyAnon
    (by decide) (by decide) (by decide)

/-- The two error shapes the program distinguishes: a GitHub rate limit error
carrying the quota reset timestamp (`github.RateLimitError` with
`e.Rate.Reset.Time`), and any other error, treated opaquely. -/
inductive GHError where
  | rateLimit (reset : Int)
  | other (msg : String)
deriving DecidableEq

/-- `waitForRateLimitReset` (main.go lines 508-517), with the wall clock made
explicit: given the current time and an error, it reports whether the error is
a rate limit error; on a rate limit error it computes
`delta = time.Until(reset) = reset - now` and sleeps for `delta`, advancing
the clock to `max now reset` (a nonpositive delta returns immediately from
`time.Sleep`).  Returns (isRateLimit, clock after the call, delta slept). -/
def waitForRateLimitReset (now : Int) : GHError → Bool × Int × Int
  | GHError.rateLimit reset => (true, max now reset, reset - now)
  | GHError.other _ => (false, now, 0)

/-- The retry loop shared by every wrapped call site (for example main.go
lines 303-317): given the stream of outcomes of successive invocations of one
API operation (`op i` is the outcome of invocation `i`), the index of the
invocation whose outcome is currently in hand, the current clock, and that
outcome, repeat `for waitForRateLimitReset(err) { re-invoke }`.  The fuel
bounds the number of retries modelled; `none` means the loop is still
retrying after `fuel` retries.  Returns the final outcome, the final clock
and the list of deltas slept. -/
def retryAux {A : Type} (op : Nat → Except GHError A) :
    Nat → Nat → Int → Except GHError A → Option (Except GHError A × Int × List Int)
  | _, _, now, Except.ok a => some (Except.ok a, now, [])
  | 0, _, now, Except.error e =>
      if (waitForRateLimitReset now e).1 then none else some (Except.error e, now, [])
  | fuel + 1, i, now, Except.error e =>
      match waitForRateLimitReset now e with
      | (true, now1, delta) =>
          (retryAux op fuel (i + 1) now1 (op (i + 1))).map
            (fun x => (x.1, x.2.1, delta :: x.2.2))
      | (false, _, _) => some (Except.error e, now, [])

/-- A wrapped API call: invoke the operation once and run the rate limit
retry loop on its outcome, as every wrapped call site in main.go does. -/
def wrapRL {A : Type} (op : Nat → Except GHError A) (fuel : Nat) (now : Int) :
    Option (Except GHError A × Int × List Int) :=
  retryAux op fuel 0 now (op 0)

/-- The operation stream shifted by one invocation. -/
def shiftOp {A : Type} (op : Nat → Except GHError A) : Nat → Except GHError A :=
  fun n => op (n + 1)

/-- Whether an outcome is a rate limit error. -/
def isRLErr {A : Type} : Except GHError A → Bool
  | Except.error (GHError.rateLimit _) => true
  | _ => false

/-- The retry loop only ever reads the operation stream from the next
invocation index on, so shifting the stream and the index agree. -/
theorem retryAux_shift {A : Type} (op : Nat → Except GHError A) :
    ∀ (fuel i : Nat) (now : Int) (r : Except GHError A),
      retryAux op fuel (i + 1) now r = retryAux (shiftOp op) fuel i now r := by
  intro fuel
  induction fuel with
  | zero =>
    intro i now r
    cases r with
    | ok a => rfl
    | error e => rfl
  | succ fuel ih =>
    intro i now r
    cases r with
    | ok a => rfl
    | error e =>
      cases e with
      | rateLimit reset =>
        simp only [retryAux, waitForRateLimitReset]
        rw [ih]
        rfl
      | other m => rfl

/-- The outcome component of the retry loop does not depend on the clock. -/
theorem retryAux_fst_clock_irrel {A : Type} (op : Nat → Except GHError A) :
    ∀ (fuel i : Nat) (now now' : Int) (r : Except GHError A),
      (retryAux op fuel i now r).map (fun x => x.1) =
        (retryAux op fuel i now' r).map (fun x => x.1) := by
  intro fuel
  induction fuel with
  | zero =>
    intro i now now' r
    cases r with
    | ok a => rfl
    | error e => cases e <;> rfl
  | succ fuel ih =>
    intro i now now' r
    cases r with
    | ok a => rfl
    | error e =>
      cases e with
      | rateLimit reset =>
        simp only [retryAux, waitForRateLimitReset, Option.map_map]
        have h := ih (i + 1) (max now reset) (max now' reset) (op (i + 1))
        calc (retryAux op fuel (i + 1) (max now reset) (op (i + 1))).map
              ((fun x => x.1) ∘ fun x => (x.1, x.2.1, (reset - now) :: x.2.2))
            = (retryAux op fuel (i + 1) (max now reset) (op (i + 1))).map (fun x => x.1) := by
              rfl
          _ = (retryAux op fuel (i + 1) (max now' reset) (op (i + 1))).map (fun x => x.1) := h
          _ = (retryAux op fuel (i + 1) (max now' reset) (op (i + 1))).map
              ((fun x => x.1) ∘ fun x => (x.1, x.2.1, (reset - now') :: x.2.2)) := by rfl
      | other m => rfl

/-- A successful first invocation returns immediately with no sleep. -/
theorem wrapRL_ok {A : Type} (op : Nat → Except GHError A) (fuel : Nat) (now : Int)
    (a : A) (h : op 0 = Except.ok a) :
    wrapRL op fuel now = some (Except.ok a, now, []) := by
  unfold wrapRL
  rw [h]
  cases fuel <;> rfl

/-- A non rate limit error on the first invocation is surfaced immediately
with no retry and no sleep. -/
theorem wrapRL_other {A : Type} (op : Nat → Except GHError A) (fuel : Nat) (now : Int)
    (m : String) (h : op 0 = Except.error (GHError.other m)) :
    wrapRL op fuel now = some (Except.error (GHError.other m), now, []) := by
  unfold wrapRL
  rw [h]
  cases fuel <;> rfl

/-- A rate limit error on the first invocation sleeps `reset - now` and
re-invokes the operation: the run equals the run of the shifted stream at the
advanced clock, with the slept delta recorded in front. -/
theorem wrapRL_rateLimit {A : Type} (op : Nat → Except GHError A) (fuel : Nat) (now : Int)
    (reset : Int) (h : op 0 = Except.error (GHError.rateLimit reset)) :
    wrapRL op (fuel + 1) now =
      (wrapRL (shiftOp op) fuel (max now reset)).map
        (fun x => (x.1, x.2.1, (reset - now) :: x.2.2)) := by
  unfold wrapRL
  rw [h]
  simp only [retryAux, waitForRateLimitReset]
  rw [retryAux_shift]
  rfl

/-- If the first `k` invocations hit the rate limit and invocation `k` does
not, then with at least `k` units of retry fuel the wrapped call returns the
outcome of invocation `k` after exactly `k` sleeps. -/
theorem wrapRL_settles {A : Type} :
    ∀ (k : Nat) (op : Nat → Except GHError A) (fuel : Nat) (now : Int),
      (∀ j, j < k → isRLErr (op j) = true) → isRLErr (op k) = false → k ≤ fuel →
      ∃ t ds, wrapRL op fuel now = some (op k, t, ds) ∧ ds.length = k := by
  intro k
  induction k with
  | zero =>
    intro op fuel now _ hk _
    cases hop : op 0 with
    | ok a => exact ⟨now, [], wrapRL_ok op fuel now a hop, rfl⟩
    | error e =>
      cases e with
      | rateLimit reset =>
        exfalso
        rw [hop] at hk
        simp [isRLErr] at hk
      | other m => exact ⟨now, [], wrapRL_other op fuel now m hop, rfl⟩
  | succ k ih =>
    intro op fuel now hlt hk hfuel
    obtain ⟨fuel, rfl⟩ : ∃ f, fuel = f + 1 := by
      cases fuel with
      | zero => omega
      | succ f => exact ⟨f, rfl⟩
    have h0 : isRLErr (op 0) = true := hlt 0 (Nat.succ_pos k)
    cases hop : op 0 with
    | ok a => rw [hop] at h0; simp [isRLErr] at h0
    | error e =>
      cases e with
      | other m => rw [hop] at h0; simp [isRLErr] at h0
      | rateLimit reset =>
        have hlt' : ∀ j, j < k → isRLErr (shiftOp op j) = true := by
          intro j hj
          exact hlt (j + 1) (Nat.succ_lt_succ hj)
        have hk' : isRLErr (shiftOp op k) = false := hk
        obtain ⟨t, ds, hrun, hlen⟩ :=
          ih (shiftOp op) fuel (max now reset) hlt' hk' (Nat.le_of_succ_le_succ hfuel)
        refine ⟨t, (reset - now) :: ds, ?_, by simp [hlen]⟩
        rw [wrapRL_rateLimit op fuel now reset hop, hrun]
        rfl

/-- C5: the retry behaviour of every wrapped API operation.  A successful
first invocation and a non rate limit error return after a single invocation
with no sleep (the error surfaced to the caller); a rate limit error with
reset time `reset` sleeps `reset - now` and re-invokes the operation; and
whenever the first `k` outcomes are rate limit errors and outcome `k` is not,
any fuel of at least `k` yields the outcome of invocation `k` after exactly
`k` sleeps, so the retries continue for as long as quota errors recur. -/
theorem rate_limit_retry_policy (A : Type) :
    (∀ (op : Nat → Except GHError A) (fuel : Nat) (now : Int) (a : A),
      op 0 = Except.ok a → wrapRL op fuel now = some (Except.ok a, now, [])) ∧
    (∀ (op : Nat → Except GHError A) (fuel : Nat) (now : Int) (m : String),
      op 0 = Except.error (GHError.other m) →
      wrapRL op fuel now = some (Except.error (GHError.other m), now, [])) ∧
    (∀ (op : Nat → Except GHError A) (fuel : Nat) (now reset : Int),
      op 0 = Except.error (GHError.rateLimit reset) →
      wrapRL op (fuel + 1) now =
        (wrapRL (shiftOp op) fuel (max now reset)).map
          (fun x => (x.1, x.2.1, (reset - now) :: x.2.2))) ∧
    (∀ (k : Nat) (op : Nat → Except GHError A) (fuel : Nat) (now : Int),
      (∀ j, j < k → isRLErr (op j) = true) → isRLErr (op k) = false → k ≤ fuel →
      ∃ t ds, wrapRL op fuel now = some (op k, t, ds) ∧ ds.length = k) :=
  ⟨fun op fuel now a h => wrapRL_ok op fuel now a h,
   fun op fuel now m h => wrapRL_other op fuel now m h,
   fun op fuel now reset h => wrapRL_rateLimit op fuel now reset h,
   fun k op fuel now h1 h2 h3 => wrapRL_settles k op fuel now h1 h2 h3⟩

/-- A concrete operation stream: one rate limit error, then success. -/
def opOneRL : Nat → Except GHError Nat :=
  fun n => if n < 1 then Except.error (GHError.rateLimit 3) else Except.ok 42

/-- A concrete operation stream that always succeeds. -/
def opAlwaysOk : Nat → Except GHError Nat := fun _ => Except.ok 7

/-- A concrete operation stream that always fails with a non quota error. -/
def opAlwaysOther : Nat → Except GHError Nat := fun _ => Except.error (GHError.other "boom")

/-- Witness for C5 at concrete streams: immediate success, immediate non
quota failure, and a retry after one rate limit error. -/
theorem rate_limit_retry_policy_witness :
    wrapRL opAlwaysOk 4 0 = some (Except.ok 7, 0, []) ∧
    wrapRL opAlwaysOther 4 0 = some (Except.error (GHError.other "boom"), 0, []) ∧
    wrapRL opOneRL 1 0 =
      (wrapRL (shiftOp opOneRL) 0 (max 0 3)).map
        (fun x => (x.1, x.2.1, (3 - 0) :: x.2.2)) :=
  ⟨(rate_limit_retry_policy Nat).1 opAlwaysOk 4 0 7 rfl,
   (rate_limit_retry_policy Nat).2.1 opAlwaysOther 4 0 "boom" rfl,
   (rate_limit_retry_policy Nat).2.2.1 opOneRL 0 0 3 rfl⟩

deriving instance DecidableEq for Except

/-- The order `sort.Slice` establishes in `getForks` and `getAllForks`:
ascending by `GetFullName()`. -/
def leFullName (a b : Repo) : Prop := a.fullName ≤ b.fullName

instance : DecidableRel leFullName :=
  fun a b => inferInstanceAs (Decidable (a.fullName ≤ b.fullName))

instance : IsTotal Repo leFullName := ⟨fun a b => le_total a.fullName b.fullName⟩

instance : IsTrans Repo leFullName := ⟨fun _ _ _ h1 h2 => le_trans h1 h2⟩

/-- The order `sort.Slice` establishes in `getBranches`: ascending by
`GetName()`. -/
def leBranchName (a b : Branch) : Prop := a.name ≤ b.name

instance : DecidableRel leBranchName :=
  fun a b => inferInstanceAs (Decidable (a.name ≤ b.name))

instance : IsTotal Branch leBranchName := ⟨fun a b => le_total a.name b.name⟩

instance : IsTrans Branch leBranchName := ⟨fun _ _ _ h1 h2 => le_trans h1 h2⟩

/-- The resolved outcome of one wrapped call: the final outcome of the rate
limit retry loop, with the clock and sleep bookkeeping dropped (the outcome
does not depend on the clock, see `retryAux_fst_clock_irrel`). -/
def resolveRL {A : Type} (op : Nat → Except GHError A) (fuel : Nat) :
    Option (Except GHError A) :=
  (wrapRL op fuel 0).map (fun x => x.1)

/-- The paginated listing loop shared by `getForks`, `getBranches` and
`getCommits` (for example main.go lines 359-390): fetch the current page
through the rate limit wrapper; if the wrapped fetch still fails, log a
warning and break, returning the partial result accumulated so far; otherwise
accumulate the page items and continue with `resp.NextPage` until it is 0.
`fetch page i` is the outcome of invocation `i` of the fetch of `page`;
`pageFuel` bounds the number of pages modelled (`none` = still paging). -/
def listPagesAux {A : Type} (fetch : Nat → Nat → Except GHError (List A × Nat))
    (retryFuel : Nat) : Nat → Nat → Option (List A)
  | 0, _ => none
  | pageFuel + 1, page =>
    match resolveRL (fetch page) retryFuel with
    | none => none
    | some (Except.error _) => some []
    | some (Except.ok (items, nextPage)) =>
      if nextPage = 0 then some items
      else (listPagesAux fetch retryFuel pageFuel nextPage).map (fun rest => items ++ rest)

/-- `getForks` (main.go lines 359-390): accumulate forks across pages starting
at page 1, then sort ascending by full name. -/
def getForks (fetch : Nat → Nat → Except GHError (List Repo × Nat))
    (retryFuel pageFuel : Nat) : Option (List Repo) :=
  (listPagesAux fetch retryFuel pageFuel 1).map (List.insertionSort leFullName)

/-- `getBranches` (main.go lines 393-425): accumulate branches across pages
starting at page 1, sort ascending by name, and return with a nil error —
`return allBrances, nil` is the only return statement, so the error slot of
the result is always `Except.ok`. -/
def getBranches (fetch : Nat → Nat → Except GHError (List Branch × Nat))
    (retryFuel pageFuel : Nat) : Option (Except GHError (List Branch)) :=
  (listPagesAux fetch retryFuel pageFuel 1).map
    (fun allBrances => Except.ok (List.insertionSort leBranchName allBrances))

/-- The `c.getRepo` call site (main.go lines 303-317): a single repository
fetch wrapped in the rate limit retry loop. -/
def getRepoCall (op : Nat → Except GHError Repo) (fuel : Nat) (now : Int) :
    Option (Except GHError Repo × Int × List Int) :=
  wrapRL op fuel now

/-- The `CompareCommits` call site inside `compare` (main.go lines 209-214):
wrapped in the rate limit retry loop. -/
def compareCommitsCall (op : Nat → Except GHError CompareResult) (fuel : Nat) (now : Int) :
    Option (Except GHError CompareResult × Int × List Int) :=
  wrapRL op fuel now

/-- The per-page `ListBranches` call site inside `getBranches` (main.go lines
403-413): wrapped in the rate limit retry loop. -/
def listBranchesPage (fetch : Nat → Nat → Except GHError (List Branch × Nat))
    (page retryFuel : Nat) : Option (Except GHError (List Branch × Nat)) :=
  resolveRL (fetch page) retryFuel

/-- The per-page `ListForks` call site inside `getForks` (main.go lines
368-378): wrapped in the rate limit retry loop. -/
def listForksPage (fetch : Nat → Nat → Except GHError (List Repo × Nat))
    (page retryFuel : Nat) : Option (Except GHError (List Repo × Nat)) :=
  resolveRL (fetch page) retryFuel

/-- The per-page `ListCommits` call site inside `getCommits` (main.go lines
440-450): wrapped in the rate limit retry loop. -/
def listCommitsPage (fetch : Nat → Nat → Except GHError (List CommitAuthorship × Nat))
    (page retryFuel : Nat) : Option (Except GHError (List CommitAuthorship × Nat)) :=
  resolveRL (fetch page) retryFuel

/-- The `SetRepositorySubscription` call site of the watch feature (main.go
line 174): the operation is invoked once and any error is returned to the
caller via `errors.WithStack` — there is no retry loop around this call. -/
def setSubscriptionCall (op : Nat → Except GHError Unit) : Except GHError Unit :=
  op 0

/-- The setup phase of `findInterestingForks` (main.go lines 133-156): fetch
the root repository, aborting with the error on failure, then fetch the root
branch list; the error check after `getBranches` mirrors the source even
though `getBranches` never returns an error. -/
def findInterestingForksSetup (repoOp : Nat → Except GHError Repo)
    (branchFetch : Nat → Nat → Except GHError (List Branch × Nat))
    (retryFuel pageFuel : Nat) (now : Int) : Option (Except GHError (Repo × List Branch)) :=
  match getRepoCall repoOp retryFuel now with
  | none => none
  | some (Except.error e, _, _) => some (Except.error e)
  | some (Except.ok repo, _, _) =>
    match getBranches branchFetch retryFuel pageFuel with
    | none => none
    | some (Except.error e) => some (Except.error e)
    | some (Except.ok repoBranches) => some (Except.ok (repo, repoBranches))

/-- A rate limit error on the first attempt of a wrapped call resolves to the
resolution of the shifted attempt stream: the operation is re-invoked. -/
theorem resolveRL_rateLimit {A : Type} (op : Nat → Except GHError A) (fuel : Nat)
    (reset : Int) (h : op 0 = Except.error (GHError.rateLimit reset)) :
    resolveRL op (fuel + 1) = resolveRL (shiftOp op) fuel := by
  unfold resolveRL
  rw [wrapRL_rateLimit op fuel 0 reset h, Option.map_map]
  have h1 : ((fun x : Except GHError A × Int × List Int => x.1) ∘
      fun x : Except GHError A × Int × List Int => (x.1, x.2.1, (reset - 0) :: x.2.2)) =
      fun x : Except GHError A × Int × List Int => x.1 := rfl
  rw [h1]
  unfold wrapRL
  exact retryAux_fst_clock_irrel (shiftOp op) fuel 0 (max 0 reset) 0 (shiftOp op 0)

/-- A wrapped call never resolves to a rate limit error: rate limit errors
are always consumed by a retry, never surfaced. -/
theorem retryAux_no_rateLimit {A : Type} (op : Nat → Except GHError A) :
    ∀ (fuel i : Nat) (now : Int) (r : Except GHError A) (res : Except GHError A)
      (t : Int) (ds : List Int),
      retryAux op fuel i now r = some (res, t, ds) → isRLErr res = false := by
  intro fuel
  induction fuel with
  | zero =>
    intro i now r res t ds h
    cases r with
    | ok a =>
      simp only [retryAux] at h
      cases h
      rfl
    | error e =>
      cases e with
      | rateLimit reset => simp [retryAux, waitForRateLimitReset] at h
      | other m =>
        simp only [retryAux, waitForRateLimitReset] at h
        cases h
        rfl
  | succ fuel ih =>
    intro i now r res t ds h
    cases r with
    | ok a =>
      simp only [retryAux] at h
      cases h
      rfl
    | error e =>
      cases e with
      | rateLimit reset =>
        simp only [retryAux, waitForRateLimitReset, Option.map_eq_some'] at h
        obtain ⟨⟨res1, t1, ds1⟩, hrun, heq⟩ := h
        cases heq
        exact ih (i + 1) (max now reset) (op (i + 1)) res1 t1 ds1 hrun
      | other m =>
        simp only [retryAux, waitForRateLimitReset] at h
        cases h
        rfl

/-- C8 (amended): the repository fetch, the comparison call, and the
per-page branch, fork and commit listing calls are each wrapped in the rate
limit retry loop — on a first-attempt rate limit error each re-invokes its
operation — and a wrapped call never surfaces a rate limit error; the watch
feature subscription call is not wrapped: a rate limit error from it is
surfaced to the caller unchanged, with no re-invocation. -/
theorem api_retry_wrapping :
    (∀ (op : Nat → Except GHError Repo) (fuel : Nat) (now reset : Int),
      op 0 = Except.error (GHError.rateLimit reset) →
      getRepoCall op (fuel + 1) now =
        (getRepoCall (shiftOp op) fuel (max now reset)).map
          (fun x => (x.1, x.2.1, (reset - now) :: x.2.2))) ∧
    (∀ (op : Nat → Except GHError CompareResult) (fuel : Nat) (now reset : Int),
      op 0 = Except.error (GHError.rateLimit reset) →
      compareCommitsCall op (fuel + 1) now =
        (compareCommitsCall (shiftOp op) fuel (max now reset)).map
          (fun x => (x.1, x.2.1, (reset - now) :: x.2.2))) ∧
    (∀ (fetch : Nat → Nat → Except GHError (List Branch × Nat)) (page fuel : Nat) (reset : Int),
      fetch page 0 = Except.error (GHError.rateLimit reset) →
      listBranchesPage fetch page (fuel + 1) =
        listBranchesPage (fun p i => fetch p (i + 1)) page fuel) ∧
    (∀ (fetch : Nat → Nat → Except GHError (List Repo × Nat)) (page fuel : Nat) (reset : Int),
      fetch page 0 = Except.error (GHError.rateLimit reset) →
      listForksPage fetch page (fuel + 1) =
        listForksPage (fun p i => fetch p (i + 1)) page fuel) ∧
    (∀ (fetch : Nat → Nat → Except GHError (List CommitAuthorship × Nat))
      (page fuel : Nat) (reset : Int),
      fetch page 0 = Except.error (GHError.rateLimit reset) →
      listCommitsPage fetch page (fuel + 1) =
        listCommitsPage (fun p i => fetch p (i + 1)) page fuel) ∧
    (∀ (op : Nat → Except GHError Repo) (fuel : Nat) (now : Int) (res : Except GHError Repo)
      (t : Int) (ds : List Int),
      getRepoCall op fuel now = some (res, t, ds) → isRLErr res = false) ∧
    (∀ (op : Nat → Except GHError Unit) (reset : Int),
      op 0 = Except.error (GHError.rateLimit reset) →
      setSubscriptionCall op = Except.error (GHError.rateLimit reset)) := by
  refine ⟨?_, ?_, ?_, ?_, ?_, ?_, ?_⟩
  · intro op fuel now reset h
    exact wrapRL_rateLimit op fuel now reset h
  · intro op fuel now reset h
    exact wrapRL_rateLimit op fuel now reset h
  · intro fetch page fuel reset h
    exact resolveRL_rateLimit (fetch page) fuel reset h
  · intro fetch page fuel reset h
    exact resolveRL_rateLimit (fetch page) fuel reset h
  · intro fetch page fuel reset h
    exact resolveRL_rateLimit (fetch page) fuel reset h
  · intro op fuel now res t ds h
    exact retryAux_no_rateLimit op fuel 0 now (op 0) res t ds h
  · intro op reset h
    exact h

/-- A concrete subscription operation stream: one rate limit error, then
success. -/
def subOneRL : Nat → Except GHError Unit :=
  fun n => if n < 1 then Except.error (GHError.rateLimit 5) else Except.ok ()

/-- Counterexample for C8: the watch feature subscription call surfaces a
rate limit error to the caller instead of sleeping and re-invoking — on the
same operation stream the rate limit wrapper would have retried and
succeeded. -/
theorem set_subscription_unwrapped_counterexample :
    setSubscriptionCall subOneRL = Except.error (GHError.rateLimit 5) ∧
    wrapRL subOneRL 1 0 = some (Except.ok (), 5, [5]) :=
  ⟨rfl, rfl⟩

/-- Witness for C8: the subscription call site propagates a first-attempt
rate limit error unchanged. -/
theorem api_retry_wrapping_witness :
    setSubscriptionCall subOneRL = Except.error (GHError.rateLimit 5) :=
  api_retry_wrapping.2.2.2.2.2.2 subOneRL 5 rfl

/-- C7: when the wrapped fetch of a page resolves to an error, the paginated
listing loop stops at that page and returns the items accumulated from the
earlier pages; in particular, when page 1 succeeds pointing at page 2 and
page 2 fails with a non quota error, `getForks` returns exactly the page 1
items (sorted), not an error. -/
theorem paged_partial_results :
    (∀ (A : Type) (fetch : Nat → Nat → Except GHError (List A × Nat))
      (retryFuel pageFuel page : Nat) (e : GHError),
      resolveRL (fetch page) retryFuel = some (Except.error e) →
      listPagesAux fetch retryFuel (pageFuel + 1) page = some []) ∧
    (∀ (fetch : Nat → Nat → Except GHError (List Repo × Nat))
      (retryFuel pageFuel : Nat) (items1 : List Repo) (m : String),
      resolveRL (fetch 1) retryFuel = some (Except.ok (items1, 2)) →
      resolveRL (fetch 2) retryFuel = some (Except.error (GHError.other m)) →
      getForks fetch retryFuel (pageFuel + 1 + 1) =
        some (List.insertionSort leFullName items1)) := by
  constructor
  · intro A fetch retryFuel pageFuel page e h
    simp [listPagesAux, h]
  · intro fetch retryFuel pageFuel items1 m h1 h2
    unfold getForks
    have hmain : listPagesAux fetch retryFuel (pageFuel + 1 + 1) 1 = some items1 := by
      unfold listPagesAux
      rw [h1]
      simp [h2]
      simp [listPagesAux, h2]
    rw [hmain]
    rfl

/-- Two concrete repositories used by the pagination witness. -/
def repoA : Repo := ⟨"a", "w", "master", 0⟩

/-- Second concrete repository for the pagination witness. -/
def repoB : Repo := ⟨"b", "w", "master", 0⟩

/-- A concrete paged fetch: page 1 succeeds pointing at page 2, every other
page fails with a non quota error. -/
def fetchP2Fails : Nat → Nat → Except GHError (List Repo × Nat) :=
  fun page _ => if page = 1 then Except.ok ([repoB, repoA], 2)
    else Except.error (GHError.other "page 2 down")

/-- Witness for C7: with page 1 delivering two forks and page 2 failing,
`getForks` returns exactly the page 1 items, sorted. -/
theorem paged_partial_results_witness :
    getForks fetchP2Fails 1 3 = some (List.insertionSort leFullName [repoB, repoA]) :=
  paged_partial_results.2 fetchP2Fails 1 1 [repoB, repoA] "page 2 down" rfl rfl

/-- The root repository fetch aborting the run surfaces exactly the fetch
error; the branch list fetch never surfaces an error. -/
theorem setup_abort_policy :
    (∀ (repoOp : Nat → Except GHError Repo)
      (branchFetch : Nat → Nat → Except GHError (List Branch × Nat))
      (retryFuel pageFuel : Nat) (now : Int) (m : String),
      repoOp 0 = Except.error (GHError.other m) →
      findInterestingForksSetup repoOp branchFetch retryFuel pageFuel now =
        some (Except.error (GHError.other m))) ∧
    (∀ (branchFetch : Nat → Nat → Except GHError (List Branch × Nat))
      (retryFuel pageFuel : Nat) (res : Except GHError (List Branch)),
      getBranches branchFetch retryFuel pageFuel = some res →
      ∃ l, res = Except.ok l) ∧
    (∀ (repoOp : Nat → Except GHError Repo)
      (branchFetch : Nat → Nat → Except GHError (List Branch × Nat))
      (retryFuel pageFuel : Nat) (now : Int) (repo : Repo) (m : String),
      repoOp 0 = Except.ok repo →
      resolveRL (branchFetch 1) retryFuel = some (Except.error (GHError.other m)) →
      findInterestingForksSetup repoOp branchFetch retryFuel (pageFuel + 1) now =
        some (Except.ok (repo, []))) := by
  refine ⟨?_, ?_, ?_⟩
  · intro repoOp branchFetch retryFuel pageFuel now m h
    unfold findInterestingForksSetup
    rw [show getRepoCall repoOp retryFuel now =
        some (Except.error (GHError.other m), now, []) from
      wrapRL_other repoOp retryFuel now m h]
  · intro branchFetch retryFuel pageFuel res h
    unfold getBranches at h
    rw [Option.map_eq_some'] at h
    obtain ⟨l, _, hres⟩ := h
    exact ⟨List.insertionSort leBranchName l, hres.symm⟩
  · intro repoOp branchFetch retryFuel pageFuel now repo m h1 h2
    unfold findInterestingForksSetup
    rw [show getRepoCall repoOp retryFuel now = some (Except.ok repo, now, []) from
      wrapRL_ok repoOp retryFuel now repo h1]
    have hb : getBranches branchFetch retryFuel (pageFuel + 1) = some (Except.ok []) := by
      unfold getBranches
      have : listPagesAux branchFetch retryFuel (pageFuel + 1) 1 = some [] := by
        simp [listPagesAux, h2]
      rw [this]
      rfl
    rw [hb]

/-- A concrete root repository. -/
def rootRepoC : Repo := ⟨"acme", "widget", "master", 1⟩

/-- A concrete repository fetch that always succeeds. -/
def repoOpOk : Nat → Except GHError Repo := fun _ => Except.ok rootRepoC

/-- A concrete branch page fetch that always fails with a non quota error,
so the root branch list cannot be obtained at all. -/
def branchFetchFail : Nat → Nat → Except GHError (List Branch × Nat) :=
  fun _ _ => Except.error (GHError.other "branch fetch failed")

/-- Counterexample for C6: with the root repository fetched and every branch
list page failing, the setup phase does not abort — it continues with an
empty branch list and no error is surfaced. -/
theorem setup_branchlist_no_abort_counterexample :
    findInterestingForksSetup repoOpOk branchFetchFail 1 1 0 =
      some (Except.ok (rootRepoC, [])) :=
  rfl

/-- A concrete repository fetch that always fails with a non quota error. -/
def repoOpFail : Nat → Except GHError Repo :=
  fun _ => Except.error (GHError.other "no such repository")

/-- Witness for C6: a failing root repository fetch aborts the setup with
exactly that error. -/
theorem setup_abort_policy_witness :
    findInterestingForksSetup repoOpFail branchFetchFail 1 1 0 =
      some (Except.error (GHError.other "no such repository")) :=
  setup_abort_policy.1 repoOpFail branchFetchFail 1 1 0 "no such repository" rfl

/-- `repoQueue` (main.go lines 463-496): a queue backed by an element slice
and a position pointer; the first element is at `elems[pos]`. -/
structure repoQueue where
  elems : List repoElem
  pos : Nat
deriving DecidableEq

/-- `newRepoQueue`: the empty queue. -/
def newRepoQueue : repoQueue := ⟨[], 0⟩

/-- `push`: append the element at the end of the element slice. -/
def repoQueue.push (q : repoQueue) (elem : repoElem) : repoQueue :=
  { q with elems := q.elems ++ [elem] }

/-- `pop`: read `elems[pos]` and advance the position pointer.  The Go code
indexes the slice unconditionally and would panic out of bounds; the panic is
modelled by `none`. -/
def repoQueue.pop (q : repoQueue) : Option (repoElem × repoQueue) :=
  if h : q.pos < q.elems.length then
    some (q.elems.get ⟨q.pos, h⟩, { q with pos := q.pos + 1 })
  else none

/-- `empty`: report whether `elems[pos:]` is empty, and if so truncate the
element slice to length zero while keeping the position pointer unchanged
(the `q.elems = q.elems[:0]` reset). -/
def repoQueue.empty (q : repoQueue) : Bool × repoQueue :=
  if (q.elems.drop q.pos).length = 0 then (true, { q with elems := [] })
  else (false, q)

/-- One client operation on the queue. -/
inductive QOp where
  | push (elem : repoElem)
  | pop
deriving DecidableEq

/-- Run a sequence of queue operations under the discipline `getAllForks`
follows (main.go lines 329-351): every pop is immediately preceded by an
`empty` call, and a true `empty` result ends the interaction (so no push ever
follows an `empty` call that returned true).  An out-of-bounds pop — the Go
panic — yields `none`; the returned list collects the popped elements. -/
def runOps : List QOp → repoQueue → Option (List repoElem)
  | [], _ => some []
  | QOp.push e :: ops, q => runOps ops (q.push e)
  | QOp.pop :: ops, q =>
    match q.empty with
    | (true, _) => some []
    | (false, q1) =>
      match q1.pop with
      | none => none
      | some (e, q2) => (runOps ops q2).map (fun out => e :: out)

/-- The elements pushed by a sequence of operations, in order. -/
def pushesOfOps : List QOp → List repoElem
  | [] => []
  | QOp.push e :: ops => e :: pushesOfOps ops
  | QOp.pop :: ops => pushesOfOps ops

/-- Under the pop-guarded-by-empty discipline, a run never pops out of
bounds as long as the position pointer is within the element slice. -/
theorem runOps_isSome :
    ∀ (ops : List QOp) (q : repoQueue), q.pos ≤ q.elems.length → (runOps ops q).isSome := by
  intro ops
  induction ops with
  | nil => intro q _; rfl
  | cons op ops ih =>
    intro q hq
    cases op with
    | push e =>
      have : (q.push e).pos ≤ (q.push e).elems.length := by
        simp only [repoQueue.push, List.length_append, List.length_cons, List.length_nil]
        omega
      exact ih (q.push e) this
    | pop =>
      by_cases h : q.pos < q.elems.length
      · have hempty : q.empty = (false, q) := by
          simp only [repoQueue.empty, List.length_drop]
          rw [if_neg (by omega)]
        have hpop : q.pop = some (q.elems.get ⟨q.pos, h⟩, { q with pos := q.pos + 1 }) := by
          simp [repoQueue.pop, h]
        simp only [runOps, hempty, hpop]
        have hle : ({ q with pos := q.pos + 1 } : repoQueue).pos ≤
            ({ q with pos := q.pos + 1 } : repoQueue).elems.length := by
          simpa using h
        have hrec := ih { q with pos := q.pos + 1 } hle
        obtain ⟨v, hv⟩ := Option.isSome_iff_exists.mp hrec
        simp [hv]
      · have hpos : q.pos = q.elems.length := Nat.le_antisymm hq (Nat.le_of_not_lt h)
        have hempty : q.empty = (true, { q with elems := [] }) := by
          simp only [repoQueue.empty, List.length_drop]
          rw [if_pos (by omega)]
        simp [runOps, hempty]

/-- Under the pop-guarded-by-empty discipline, the popped elements are the
pending elements followed by the pushed elements, in first-in-first-out
order (the run pops a prefix of that sequence). -/
theorem runOps_fifo :
    ∀ (ops : List QOp) (q : repoQueue) (out : List repoElem),
      q.pos ≤ q.elems.length → runOps ops q = some out →
      out = ((q.elems.drop q.pos) ++ pushesOfOps ops).take out.length := by
  intro ops
  induction ops with
  | nil =>
    intro q out _ h
    simp only [runOps] at h
    cases h
    rfl
  | cons op ops ih =>
    intro q out hq h
    cases op with
    | push e =>
      have hq' : (q.push e).pos ≤ (q.push e).elems.length := by
        simp only [repoQueue.push, List.length_append, List.length_cons, List.length_nil]
        omega
      have hrun : runOps ops (q.push e) = some out := h
      have hih : out = ((q.elems ++ [e]).drop q.pos ++ pushesOfOps ops).take out.length :=
        ih (q.push e) out hq' hrun
      have hdrop : (q.elems ++ [e]).drop q.pos = q.elems.drop q.pos ++ [e] := by
        rw [List.drop_append_eq_append_drop, Nat.sub_eq_zero_of_le hq, List.drop_zero]
      show out = (q.elems.drop q.pos ++ (e :: pushesOfOps ops)).take out.length
      rw [← List.singleton_append, ← List.append_assoc, ← hdrop]
      exact hih
    | pop =>
      by_cases hlt : q.pos < q.elems.length
      · have hempty : q.empty = (false, q) := by
          simp only [repoQueue.empty, List.length_drop]
          rw [if_neg (by omega)]
        have hpop : q.pop = some (q.elems.get ⟨q.pos, hlt⟩, { q with pos := q.pos + 1 }) := by
          simp [repoQueue.pop, hlt]
        simp only [runOps, hempty, hpop] at h
        rw [Option.map_eq_some'] at h
        obtain ⟨out1, hrun, hout⟩ := h
        have hq' : ({ q with pos := q.pos + 1 } : repoQueue).pos ≤
            ({ q with pos := q.pos + 1 } : repoQueue).elems.length := by
          simpa using hlt
        have hih : out1 = (q.elems.drop (q.pos + 1) ++ pushesOfOps ops).take out1.length :=
          ih { q with pos := q.pos + 1 } out1 hq' hrun
        subst hout
        simp only [List.length_cons]
        have hcons : q.elems.drop q.pos = q.elems.get ⟨q.pos, hlt⟩ :: q.elems.drop (q.pos + 1) := by
          rw [List.get_eq_getElem]
          exact (List.cons_getElem_drop_succ (h := hlt)).symm
        show q.elems.get ⟨q.pos, hlt⟩ :: out1 =
          (q.elems.drop q.pos ++ pushesOfOps ops).take (out1.length + 1)
        rw [hcons, List.cons_append, List.take_succ_cons, ← hih]
      · have hpos : q.pos = q.elems.length := Nat.le_antisymm hq (Nat.le_of_not_lt hlt)
        have hempty : q.empty = (true, { q with elems := [] }) := by
          simp only [repoQueue.empty, List.length_drop]
          rw [if_pos (by omega)]
        simp only [runOps, hempty] at h
        cases h
        rfl

/-- The popped element list of a disciplined run from the fresh queue. -/
def poppedOf (ops : List QOp) : List repoElem := (runOps ops newRepoQueue).getD []

/-- C9: a disciplined operation sequence — every pop immediately preceded by
an `empty` call returning false, no push after an `empty` call returned true
— never indexes out of the bounds of the element slice, and pops elements in
first-in-first-out push order (the popped list is a prefix of the pushed
list).  The discipline matters because `empty` truncates the element slice
without resetting the position pointer. -/
theorem repoQueue_discipline (ops : List QOp) :
    (runOps ops newRepoQueue).isSome ∧
    poppedOf ops = (pushesOfOps ops).take (poppedOf ops).length := by
  have h0 : newRepoQueue.pos ≤ newRepoQueue.elems.length := Nat.le_refl 0
  have hs := runOps_isSome ops newRepoQueue h0
  refine ⟨hs, ?_⟩
  obtain ⟨out, hout⟩ := Option.isSome_iff_exists.mp hs
  have hfifo := runOps_fifo ops newRepoQueue out h0 hout
  simp only [newRepoQueue, List.drop_nil, List.nil_append] at hfifo
  simp only [poppedOf, hout, Option.getD_some]
  exact hfifo

/-- The fork graph seen through `c.getForks`: for each repository the list of
direct forks that the (fully paged, sorted) fork listing returns.  A finite
association list; a repository without an entry has no forks.  This is the
abstract collaborator of `getAllForks` (main.go lines 321-356). -/
abbrev Graph := List (repoElem × List Repo)

/-- Look up the direct fork list of a repository in the graph. -/
def getForksG : Graph → repoElem → List Repo
  | [], _ => []
  | p :: g, e => if p.1 = e then p.2 else getForksG g e

/-- The queue elements pushed after one expansion (main.go lines 341-350):
the `repoElem` of each fetched fork whose `GetForksCount()` is positive, in
list order. -/
def pushList (forks : List Repo) : List repoElem :=
  (forks.filter (fun fork => 0 < fork.forksCount)).map Repo.ref

/-- Every repository reference occurring in any fork list of the graph. -/
def universeList (g : Graph) : List repoElem :=
  (g.map (fun p => p.2.map Repo.ref)).flatten

/-- The number of fork entries in the whole graph. -/
def totalSize (g : Graph) : Nat := (universeList g).length

/-- The crawl loop of `getAllForks` (main.go lines 330-351), indexed by fuel:
pop the front of the queue; skip it if already in the `done` set; otherwise
mark it done, fetch its direct forks, append them to the accumulated result,
and push every fork that itself has forks.  Returns the accumulated forks,
the list of expanded elements (those whose fork list was fetched, in order)
and the list of pushed elements (in order); `none` means the loop is still
running after `fuel` iterations. -/
def crawlFuel (g : Graph) : Nat → List repoElem → List repoElem →
    Option (List Repo × List repoElem × List repoElem)
  | 0, _, _ => none
  | _ + 1, [], _ => some ([], [], [])
  | fuel + 1, elem :: queue, done =>
    if elem ∈ done then crawlFuel g fuel queue done
    else
      match crawlFuel g fuel (queue ++ pushList (getForksG g elem)) (elem :: done) with
      | none => none
      | some (fs, ex, pu) =>
        some (getForksG g elem ++ fs, elem :: ex, pushList (getForksG g elem) ++ pu)

/-- A fuel amount sufficient for the crawl from a single root to drain its
queue (proved in `crawlFuel_isSome_of_lt` and `runCrawl_isSome`). -/
def fuelBound (g : Graph) : Nat := (totalSize g + 1) * (totalSize g + 1) + 2

/-- The crawl of `getAllForks` run from a root with sufficient fuel. -/
def runCrawl (g : Graph) (root : repoElem) :
    Option (List Repo × List repoElem × List repoElem) :=
  crawlFuel g (fuelBound g) [root] []

/-- The result triple of the crawl (total by `runCrawl_isSome`). -/
def crawlOut (g : Graph) (root : repoElem) : List Repo × List repoElem × List repoElem :=
  (runCrawl g root).getD ([], [], [])

/-- The elements expanded by the crawl, in expansion order. -/
def expandedOf (g : Graph) (root : repoElem) : List repoElem := (crawlOut g root).2.1

/-- The elements pushed by the crawl, in push order (the root, pushed before
the loop starts, is not included here). -/
def pushedOf (g : Graph) (root : repoElem) : List repoElem := (crawlOut g root).2.2

/-- `getAllForks` (main.go lines 321-356): crawl the fork graph from
owner/repo and sort the accumulated forks ascending by full name. -/
def getAllForks (g : Graph) (ownerName repoName : String) : List Repo :=
  List.insertionSort leFullName (crawlOut g ⟨ownerName, repoName⟩).1

/-- The termination measure of the crawl: unexpanded potential elements,
weighted by the maximum number of pushes one expansion can make, plus the
queue length. -/
def measureM (g : Graph) (queue done : List repoElem) : Nat :=
  (((universeList g).toFinset ∪ queue.toFinset) \ done.toFinset).card * (totalSize g + 1) +
    queue.length

/-- Elements of a push list are references of the pushed forks. -/
theorem mem_map_ref_of_mem_pushList (l : List Repo) (x : repoElem)
    (hx : x ∈ pushList l) : x ∈ l.map Repo.ref := by
  simp only [pushList, List.mem_map, List.mem_filter] at hx
  obtain ⟨f, ⟨hf, _⟩, rfl⟩ := hx
  exact List.mem_map_of_mem Repo.ref hf

/-- Every element pushed during an expansion occurs in the graph universe. -/
theorem mem_universeList_of_mem_pushList (g : Graph) (e x : repoElem)
    (hx : x ∈ pushList (getForksG g e)) : x ∈ universeList g := by
  induction g with
  | nil => simp [getForksG, pushList] at hx
  | cons p g ih =>
    have hu : universeList (p :: g) = p.2.map Repo.ref ++ universeList g := by
      simp [universeList]
    rw [hu, List.mem_append]
    by_cases hpe : p.1 = e
    · left
      rw [getForksG, if_pos hpe] at hx
      exact mem_map_ref_of_mem_pushList p.2 x hx
    · right
      rw [getForksG, if_neg hpe] at hx
      exact ih hx

/-- A push list is no longer than the fork list it came from. -/
theorem pushList_length_le (l : List Repo) : (pushList l).length ≤ l.length := by
  simp only [pushList, List.length_map]
  exact List.length_filter_le _ l

/-- Any single fork list in the graph is no longer than the graph universe. -/
theorem getForksG_length_le (g : Graph) (e : repoElem) :
    (getForksG g e).length ≤ totalSize g := by
  induction g with
  | nil => simp [getForksG]
  | cons p g ih =>
    have ht : totalSize (p :: g) = p.2.length + totalSize g := by
      simp [totalSize, universeList]
    rw [ht, getForksG]
    by_cases hpe : p.1 = e
    · rw [if_pos hpe]
      omega
    · rw [if_neg hpe]
      have := ih
      omega

/-- With fuel exceeding the measure, the crawl loop drains its queue. -/
theorem crawlFuel_isSome_of_lt (g : Graph) :
    ∀ (fuel : Nat) (queue done : List repoElem),
      measureM g queue done < fuel → (crawlFuel g fuel queue done).isSome := by
  intro fuel
  induction fuel with
  | zero =>
    intro queue done h
    exact absurd h (Nat.not_lt_zero _)
  | succ fuel ih =>
    intro queue done h
    cases queue with
    | nil => rfl
    | cons e qs =>
      by_cases he : e ∈ done
      · rw [crawlFuel, if_pos he]
        apply ih
        have hsub : ((universeList g).toFinset ∪ qs.toFinset) \ done.toFinset ⊆
            ((universeList g).toFinset ∪ (e :: qs).toFinset) \ done.toFinset := by
          apply Finset.sdiff_subset_sdiff _ (Finset.Subset.refl _)
          apply Finset.union_subset_union_right
          rw [List.toFinset_cons]
          exact Finset.subset_insert e qs.toFinset
        have hcard := Finset.card_le_card hsub
        have hmul := Nat.mul_le_mul_right (totalSize g + 1) hcard
        simp only [measureM, List.length_cons] at h ⊢
        omega
      · rw [crawlFuel, if_neg he]
        have hmeas : measureM g (qs ++ pushList (getForksG g e)) (e :: done) < fuel := by
          have hU : ((universeList g).toFinset ∪ (qs ++ pushList (getForksG g e)).toFinset) \
              (e :: done).toFinset ⊆
              ((((universeList g).toFinset ∪ (e :: qs).toFinset) \ done.toFinset).erase e) := by
            intro x hx
            simp only [Finset.mem_sdiff, Finset.mem_union, Finset.mem_erase,
              List.toFinset_append, List.toFinset_cons, Finset.mem_insert,
              List.mem_toFinset] at hx ⊢
            obtain ⟨hx1, hx2⟩ := hx
            push_neg at hx2
            refine ⟨hx2.1, ?_, hx2.2⟩
            rcases hx1 with hx1 | hx1 | hx1
            · exact Or.inl hx1
            · exact Or.inr (Or.inr hx1)
            · exact Or.inl (mem_universeList_of_mem_pushList g e x hx1)
          have heU : e ∈ ((universeList g).toFinset ∪ (e :: qs).toFinset) \ done.toFinset := by
            rw [Finset.mem_sdiff]
            refine ⟨?_, by simpa using he⟩
            rw [Finset.mem_union, List.toFinset_cons]
            exact Or.inr (Finset.mem_insert_self e qs.toFinset)
          have hcard := Finset.card_le_card hU
          rw [Finset.card_erase_of_mem heU] at hcard
          have hmul := Nat.mul_le_mul_right (totalSize g + 1) hcard
          have hone : 1 ≤ (((universeList g).toFinset ∪ (e :: qs).toFinset) \
              done.toFinset).card := Finset.card_pos.mpr ⟨e, heU⟩
          have hexp : ((((universeList g).toFinset ∪ (e :: qs).toFinset) \
              done.toFinset).card - 1) * (totalSize g + 1) =
              (((universeList g).toFinset ∪ (e :: qs).toFinset) \
              done.toFinset).card * (totalSize g + 1) - (totalSize g + 1) := by
            rw [Nat.sub_mul, Nat.one_mul]
          have hS : totalSize g + 1 ≤
              (((universeList g).toFinset ∪ (e :: qs).toFinset) \
              done.toFinset).card * (totalSize g + 1) := by
            calc totalSize g + 1 = 1 * (totalSize g + 1) := (Nat.one_mul _).symm
              _ ≤ _ := Nat.mul_le_mul_right (totalSize g + 1) hone
          have hpl : (pushList (getForksG g e)).length ≤ totalSize g :=
            Nat.le_trans (pushList_length_le _) (getForksG_length_le g e)
          simp only [measureM, List.length_cons, List.length_append] at h ⊢
          omega
        have hrec := ih (qs ++ pushList (getForksG g e)) (e :: done) hmeas
        obtain ⟨⟨fs, ex, pu⟩, heq⟩ := Option.isSome_iff_exists.mp hrec
        rw [heq]
        rfl

/-- The crawl from a single root terminates with the stated fuel bound. -/
theorem runCrawl_isSome (g : Graph) (root : repoElem) : (runCrawl g root).isSome := by
  apply crawlFuel_isSome_of_lt
  have hc : (((universeList g).toFinset ∪ [root].toFinset) \ (([] : List repoElem)).toFinset).card ≤
      totalSize g + 1 := by
    rw [List.toFinset_nil, Finset.sdiff_empty]
    calc ((universeList g).toFinset ∪ [root].toFinset).card
        ≤ (universeList g).toFinset.card + [root].toFinset.card := Finset.card_union_le _ _
      _ ≤ totalSize g + 1 := by
          have h1 := List.toFinset_card_le (universeList g)
          have h2 := List.toFinset_card_le [root]
          simp only [List.length_singleton] at h2
          exact Nat.add_le_add h1 h2
  have hmul := Nat.mul_le_mul_right (totalSize g + 1) hc
  simp only [measureM, fuelBound, List.length_singleton]
  omega

/-- Expanded elements are distinct and none of them was already done. -/
theorem crawl_expanded_nodup (g : Graph) :
    ∀ (fuel : Nat) (queue done : List repoElem) (fs : List Repo) (ex pu : List repoElem),
      crawlFuel g fuel queue done = some (fs, ex, pu) →
      ex.Nodup ∧ ∀ x ∈ ex, x ∉ done := by
  intro fuel
  induction fuel with
  | zero =>
    intro queue done fs ex pu h
    simp [crawlFuel] at h
  | succ fuel ih =>
    intro queue done fs ex pu h
    cases queue with
    | nil =>
      simp only [crawlFuel, Option.some.injEq, Prod.mk.injEq] at h
      obtain ⟨rfl, rfl, rfl⟩ := h
      exact ⟨List.nodup_nil, by intro x hx; cases hx⟩
    | cons e qs =>
      by_cases he : e ∈ done
      · rw [crawlFuel, if_pos he] at h
        exact ih qs done fs ex pu h
      · rw [crawlFuel, if_neg he] at h
        cases hrec : crawlFuel g fuel (qs ++ pushList (getForksG g e)) (e :: done) with
        | none => rw [hrec] at h; cases h
        | some t =>
          obtain ⟨fs1, ex1, pu1⟩ := t
          rw [hrec] at h
          simp only [Option.some.injEq, Prod.mk.injEq] at h
          obtain ⟨rfl, rfl, rfl⟩ := h
          obtain ⟨hnd, hdj⟩ := ih _ _ fs1 ex1 pu1 hrec
          constructor
          · rw [List.nodup_cons]
            exact ⟨fun hmem => hdj e hmem (List.mem_cons_self e done), hnd⟩
          · intro x hx
            rcases List.mem_cons.mp hx with rfl | hx1
            · exact he
            · exact fun hxdone => hdj x hx1 (List.mem_cons_of_mem e hxdone)

/-- An element is expanded iff it is queued or eventually pushed and is not
already done. -/
theorem crawl_mem_expanded (g : Graph) :
    ∀ (fuel : Nat) (queue done : List repoElem) (fs : List Repo) (ex pu : List repoElem),
      crawlFuel g fuel queue done = some (fs, ex, pu) →
      ∀ x, x ∈ ex ↔ (x ∈ queue ∨ x ∈ pu) ∧ x ∉ done := by
  intro fuel
  induction fuel with
  | zero =>
    intro queue done fs ex pu h
    simp [crawlFuel] at h
  | succ fuel ih =>
    intro queue done fs ex pu h
    cases queue with
    | nil =>
      simp only [crawlFuel, Option.some.injEq, Prod.mk.injEq] at h
      obtain ⟨rfl, rfl, rfl⟩ := h
      intro x
      simp
    | cons e qs =>
      by_cases he : e ∈ done
      · rw [crawlFuel, if_pos he] at h
        intro x
        have hiff := ih qs done fs ex pu h x
        rw [hiff]
        simp only [List.mem_cons]
        by_cases hxe : x = e
        · subst hxe
          simp [he]
        · simp [hxe]
      · rw [crawlFuel, if_neg he] at h
        cases hrec : crawlFuel g fuel (qs ++ pushList (getForksG g e)) (e :: done) with
        | none => rw [hrec] at h; cases h
        | some t =>
          obtain ⟨fs1, ex1, pu1⟩ := t
          rw [hrec] at h
          simp only [Option.some.injEq, Prod.mk.injEq] at h
          obtain ⟨rfl, rfl, rfl⟩ := h
          intro x
          have hiff := ih _ _ fs1 ex1 pu1 hrec x
          by_cases hxe : x = e
          · subst hxe
            simp [he]
          · simp only [List.mem_cons, List.mem_append, hxe, false_or] at hiff ⊢
            rw [hiff]
            tauto

/-- The accumulated fork list is the concatenation of the direct fork lists
of the expanded elements, in expansion order. -/
theorem crawl_forks_flatten (g : Graph) :
    ∀ (fuel : Nat) (queue done : List repoElem) (fs : List Repo) (ex pu : List repoElem),
      crawlFuel g fuel queue done = some (fs, ex, pu) →
      fs = (ex.map (getForksG g)).flatten := by
  intro fuel
  induction fuel with
  | zero =>
    intro queue done fs ex pu h
    simp [crawlFuel] at h
  | succ fuel ih =>
    intro queue done fs ex pu h
    cases queue with
    | nil =>
      simp only [crawlFuel, Option.some.injEq, Prod.mk.injEq] at h
      obtain ⟨rfl, rfl, rfl⟩ := h
      rfl
    | cons e qs =>
      by_cases he : e ∈ done
      · rw [crawlFuel, if_pos he] at h
        exact ih qs done fs ex pu h
      · rw [crawlFuel, if_neg he] at h
        cases hrec : crawlFuel g fuel (qs ++ pushList (getForksG g e)) (e :: done) with
        | none => rw [hrec] at h; cases h
        | some t =>
          obtain ⟨fs1, ex1, pu1⟩ := t
          rw [hrec] at h
          simp only [Option.some.injEq, Prod.mk.injEq] at h
          obtain ⟨rfl, rfl, rfl⟩ := h
          rw [List.map_cons, List.flatten_cons, ih _ _ fs1 ex1 pu1 hrec]

/-- Every push made while expanding an expanded element is recorded in the
pushed list. -/
theorem crawl_pushes_recorded (g : Graph) :
    ∀ (fuel : Nat) (queue done : List repoElem) (fs : List Repo) (ex pu : List repoElem),
      crawlFuel g fuel queue done = some (fs, ex, pu) →
      ∀ e ∈ ex, ∀ x ∈ pushList (getForksG g e), x ∈ pu := by
  intro fuel
  induction fuel with
  | zero =>
    intro queue done fs ex pu h
    simp [crawlFuel] at h
  | succ fuel ih =>
    intro queue done fs ex pu h
    cases queue with
    | nil =>
      simp only [crawlFuel, Option.some.injEq, Prod.mk.injEq] at h
      obtain ⟨rfl, rfl, rfl⟩ := h
      intro e he
      cases he
    | cons e qs =>
      by_cases he : e ∈ done
      · rw [crawlFuel, if_pos he] at h
        exact ih qs done fs ex pu h
      · rw [crawlFuel, if_neg he] at h
        cases hrec : crawlFuel g fuel (qs ++ pushList (getForksG g e)) (e :: done) with
        | none => rw [hrec] at h; cases h
        | some t =>
          obtain ⟨fs1, ex1, pu1⟩ := t
          rw [hrec] at h
          simp only [Option.some.injEq, Prod.mk.injEq] at h
          obtain ⟨rfl, rfl, rfl⟩ := h
          intro e1 he1 x hx
          rw [List.mem_append]
          rcases List.mem_cons.mp he1 with rfl | he1
          · exact Or.inl hx
          · exact Or.inr (ih _ _ fs1 ex1 pu1 hrec e1 he1 x hx)

/-- Reachability along the crawl edges: an element reaches itself, and
whatever an expansion of a reached element would push is reached. -/
inductive Reaches (g : Graph) (root : repoElem) : repoElem → Prop
  | refl : Reaches g root root
  | step {y z : repoElem} : Reaches g root y → z ∈ pushList (getForksG g y) →
      Reaches g root z

/-- Every element reachable from the root is expanded by the crawl. -/
theorem reaches_mem_expanded (g : Graph) (root : repoElem) (x : repoElem)
    (hx : Reaches g root x) : x ∈ expandedOf g root := by
  obtain ⟨⟨fs, ex, pu⟩, heq⟩ := Option.isSome_iff_exists.mp (runCrawl_isSome g root)
  have hexo : expandedOf g root = ex := by
    simp [expandedOf, crawlOut, heq]
  have hmem := crawl_mem_expanded g (fuelBound g) [root] [] fs ex pu heq
  have hpush := crawl_pushes_recorded g (fuelBound g) [root] [] fs ex pu heq
  rw [hexo]
  induction hx with
  | refl =>
    rw [hmem root]
    exact ⟨Or.inl (List.mem_singleton.mpr rfl), by intro hy; cases hy⟩
  | step hry hzpush ihy =>
    rename_i y1 z1
    have hy1 : y1 ∈ ex := ihy
    have hz1 : z1 ∈ pu := hpush y1 hy1 z1 hzpush
    rw [hmem z1]
    exact ⟨Or.inr hz1, by intro hz; cases hz⟩

/-- C3: the crawl of `getAllForks` terminates with the stated fuel bound;
each distinct repository is expanded (its direct fork list fetched) at most
once; the set of expanded repositories is exactly the set of distinct
repositories ever enqueued (the root plus every pushed element); and the
number of expansions equals the number of distinct repositories enqueued. -/
theorem crawl_expands_each_enqueued_once (g : Graph) (root : repoElem) :
    (runCrawl g root).isSome ∧
    (expandedOf g root).Nodup ∧
    (expandedOf g root).toFinset = (root :: pushedOf g root).toFinset ∧
    (expandedOf g root).length = (root :: pushedOf g root).dedup.length := by
  obtain ⟨⟨fs, ex, pu⟩, heq⟩ := Option.isSome_iff_exists.mp (runCrawl_isSome g root)
  have hexo : expandedOf g root = ex := by
    simp [expandedOf, crawlOut, heq]
  have hpuo : pushedOf g root = pu := by
    simp [pushedOf, crawlOut, heq]
  have hnd := (crawl_expanded_nodup g (fuelBound g) [root] [] fs ex pu heq).1
  have hmem := crawl_mem_expanded g (fuelBound g) [root] [] fs ex pu heq
  have hset : ex.toFinset = (root :: pu).toFinset := by
    ext x
    rw [List.mem_toFinset, List.mem_toFinset, hmem x, List.mem_cons]
    simp
  refine ⟨runCrawl_isSome g root, ?_, ?_, ?_⟩
  · rw [hexo]
    exact hnd
  · rw [hexo, hpuo]
    exact hset
  · rw [hexo, hpuo]
    calc ex.length = ex.toFinset.card := (List.toFinset_card_of_nodup hnd).symm
      _ = (root :: pu).toFinset.card := by rw [hset]
      _ = (root :: pu).dedup.length := List.card_toFinset _

/-- C4 (amended): the fork list returned by `getAllForks` is sorted ascending
by full name and is a permutation of the concatenation of the direct fork
lists of the expanded repositories; consequently every fork of every
repository reachable from the root (through forks with positive fork counts)
occurs in it — once per expanded repository whose fork list contains it, so
diamond graphs yield duplicates and cyclic graphs can include the root. -/
theorem getAllForks_sorted_flatten (g : Graph) (ownerName repoName : String) :
    List.Sorted leFullName (getAllForks g ownerName repoName) ∧
    List.Perm (getAllForks g ownerName repoName)
      ((expandedOf g ⟨ownerName, repoName⟩).map (getForksG g)).flatten ∧
    (∀ x : repoElem, Reaches g ⟨ownerName, repoName⟩ x →
      ∀ f ∈ getForksG g x, f ∈ getAllForks g ownerName repoName) := by
  obtain ⟨⟨fs, ex, pu⟩, heq⟩ :=
    Option.isSome_iff_exists.mp (runCrawl_isSome g ⟨ownerName, repoName⟩)
  have hfso : (crawlOut g ⟨ownerName, repoName⟩).1 = fs := by
    simp [crawlOut, heq]
  have hexo : expandedOf g ⟨ownerName, repoName⟩ = ex := by
    simp [expandedOf, crawlOut, heq]
  have hflat := crawl_forks_flatten g (fuelBound g) [⟨ownerName, repoName⟩] [] fs ex pu heq
  have hperm : List.Perm (getAllForks g ownerName repoName) fs := by
    unfold getAllForks
    rw [hfso]
    exact List.perm_insertionSort leFullName fs
  refine ⟨?_, ?_, ?_⟩
  · unfold getAllForks
    exact List.sorted_insertionSort leFullName _
  · rw [hexo, ← hflat]
    exact hperm
  · intro x hx f hf
    have hxex : x ∈ expandedOf g ⟨ownerName, repoName⟩ :=
      reaches_mem_expanded g ⟨ownerName, repoName⟩ x hx
    rw [hexo] at hxex
    have hfin : f ∈ (ex.map (getForksG g)).flatten := by
      rw [List.mem_flatten]
      exact ⟨getForksG g x, List.mem_map_of_mem (getForksG g) hxex, hf⟩
    rw [← hflat] at hfin
    exact hperm.mem_iff.mpr hfin

/-- A diamond fork with its own forks, reachable from the root through two
distinct parents. -/
def dForkC : Repo := ⟨"c", "w", "master", 1⟩

/-- First parent of the diamond fork. -/
def dForkA : Repo := ⟨"a", "w", "master", 1⟩

/-- Second parent of the diamond fork. -/
def dForkB : Repo := ⟨"b", "w", "master", 1⟩

/-- The root repository as it appears in the fork list of the diamond fork,
closing a cycle. -/
def dRoot : Repo := ⟨"r", "w", "master", 2⟩

/-- A fork graph with a diamond (`c` is a fork of both `a` and `b`) and a
cycle (the root is listed as a fork of `c`). -/
def diamondGraph : Graph :=
  [(⟨"r", "w"⟩, [dForkA, dForkB]), (⟨"a", "w"⟩, [dForkC]),
   (⟨"b", "w"⟩, [dForkC]), (⟨"c", "w"⟩, [dRoot])]

/-- Counterexample for C4: on the diamond-and-cycle graph, `getAllForks`
returns the diamond fork twice and includes the root repository itself, so
the returned list neither contains each reachable fork exactly once nor
excludes the root. -/
theorem getAllForks_duplicate_counterexample :
    (getAllForks diamondGraph "r" "w").count dForkC = 2 ∧
    dRoot ∈ getAllForks diamondGraph "r" "w" := by
  have hperm : List.Perm (getAllForks diamondGraph "r" "w")
      (crawlOut diamondGraph ⟨"r", "w"⟩).1 :=
    List.perm_insertionSort leFullName _
  constructor
  · rw [hperm.count_eq]
    decide
  · rw [hperm.mem_iff]
    decide

/-- The only fork of the witness graph. -/
def wFork : Repo := ⟨"x", "p", "main", 0⟩

/-- A one-edge fork graph for the C4 witness. -/
def wGraph : Graph := [(⟨"o", "p"⟩, [wFork])]

/-- Witness for C4: on a one-edge graph, the sole fork of the (trivially
reachable) root occurs in the returned list. -/
theorem getAllForks_sorted_flatten_witness :
    wFork ∈ getAllForks wGraph "o" "p" :=
  (getAllForks_sorted_flatten wGraph "o" "p").2.2 ⟨"o", "p"⟩
    Reaches.refl wFork (by decide)

end Guldkorn
